import Mathlib

/-!
Verification of the on-device YOLOv8 post-processing core generated by
`deploy_canmv.py` (class `YOLOv8Detector` in the CanMV template): IoU,
greedy class-scoped NMS, raw-output decoding with confidence filtering
and coordinate clamping, the FPS tracker and the frame-loop memory
reclamation schedule.  Numeric values are modelled as exact rationals,
machine `int()` truncation as truncation toward zero.
-/

/-- A decoded detection `(x, y, w, h, conf, cls)` as appended by
`YOLOv8Detector.postprocess` (pixel box, confidence, class index). -/
structure Det where
  x : ℚ
  y : ℚ
  w : ℚ
  h : ℚ
  conf : ℚ
  cls : ℕ
deriving DecidableEq, Repr

/-- Intersection area of two boxes, from `YOLOv8Detector.iou`:
`max(0, xi2 - xi1) * max(0, yi2 - yi1)` where `xi1 = max(x1_1, x1_2)`,
`xi2 = min(x2_1, x2_2)` and `x2_i = x1_i + wi` (similarly for y). -/
def interArea (box1 box2 : Det) : ℚ :=
  max 0 (min (box1.x + box1.w) (box2.x + box2.w) - max box1.x box2.x) *
  max 0 (min (box1.y + box1.h) (box2.y + box2.h) - max box1.y box2.y)

/-- Union area from `YOLOv8Detector.iou`: `box1_area + box2_area - inter_area`. -/
def unionArea (box1 box2 : Det) : ℚ :=
  box1.w * box1.h + box2.w * box2.h - interArea box1 box2

/-- `YOLOv8Detector.iou`: `inter_area / union_area if union_area > 0 else 0`. -/
def iou (box1 box2 : Det) : ℚ :=
  if 0 < unionArea box1 box2 then interArea box1 box2 / unionArea box1 box2 else 0

theorem interArea_comm (a b : Det) : interArea a b = interArea b a := by
  unfold interArea
  rw [min_comm (a.x + a.w), max_comm a.x, min_comm (a.y + a.h), max_comm a.y]

theorem unionArea_comm (a b : Det) : unionArea a b = unionArea b a := by
  unfold unionArea
  rw [interArea_comm, add_comm (a.w * a.h)]

/-- C8: the IoU function is commutative: for all boxes A and B given as
`(x, y, w, h)`, `IoU(A, B) = IoU(B, A)`. -/
theorem iou_comm (a b : Det) : iou a b = iou b a := by
  unfold iou
  rw [unionArea_comm, interArea_comm]

theorem interArea_eq_zero_of_degenerate (a b : Det) (ha : a.w * a.h = 0) :
    interArea a b = 0 := by
  rcases mul_eq_zero.mp ha with h | h
  · have h1 : min (a.x + a.w) (b.x + b.w) ≤ a.x := by
      rw [h, add_zero]; exact min_le_left _ _
    have h2 : a.x ≤ max a.x b.x := le_max_left _ _
    have h3 : min (a.x + a.w) (b.x + b.w) - max a.x b.x ≤ 0 := by linarith
    unfold interArea
    rw [max_eq_left h3, zero_mul]
  · have h1 : min (a.y + a.h) (b.y + b.h) ≤ a.y := by
      rw [h, add_zero]; exact min_le_left _ _
    have h2 : a.y ≤ max a.y b.y := le_max_left _ _
    have h3 : min (a.y + a.h) (b.y + b.h) - max a.y b.y ≤ 0 := by linarith
    unfold interArea
    rw [max_eq_left h3, mul_zero]

/-- C9: if both boxes are degenerate (zero area) then the union area is 0 and
IoU returns 0; the division branch is never taken because the guard
`union_area > 0` fails. -/
theorem iou_degenerate_zero (a b : Det) (ha : a.w * a.h = 0) (hb : b.w * b.h = 0) :
    unionArea a b = 0 ∧ iou a b = 0 := by
  have hu : unionArea a b = 0 := by
    unfold unionArea
    rw [ha, hb, interArea_eq_zero_of_degenerate a b ha]
    ring
  refine ⟨hu, ?_⟩
  unfold iou
  rw [hu]
  simp

/-- Witness for C9 at two concrete degenerate boxes. -/
theorem iou_degenerate_zero_witness :
    ((⟨0, 0, 0, 5, 1, 0⟩ : Det).w * (⟨0, 0, 0, 5, 1, 0⟩ : Det).h = 0) ∧
    ((⟨3, 3, 2, 0, 1, 1⟩ : Det).w * (⟨3, 3, 2, 0, 1, 1⟩ : Det).h = 0) ∧
    (unionArea ⟨0, 0, 0, 5, 1, 0⟩ ⟨3, 3, 2, 0, 1, 1⟩ = 0 ∧
      iou ⟨0, 0, 0, 5, 1, 0⟩ ⟨3, 3, 2, 0, 1, 1⟩ = 0) :=
  ⟨by norm_num, by norm_num,
    iou_degenerate_zero ⟨0, 0, 0, 5, 1, 0⟩ ⟨3, 3, 2, 0, 1, 1⟩ (by norm_num) (by norm_num)⟩

/-- Sort key of `detections.sort(key=lambda x: x[4], reverse=True)`:
`a` may come before `b` iff `b`'s confidence is at most `a`'s. -/
def confGe (a b : Det) : Prop := b.conf ≤ a.conf

instance : DecidableRel confGe := fun a b => inferInstanceAs (Decidable (b.conf ≤ a.conf))

instance : IsTotal Det confGe := ⟨fun a b => le_total b.conf a.conf⟩

instance : IsTrans Det confGe := ⟨fun _ _ _ h1 h2 => le_trans h2 h1⟩

/-- The survival condition of the list comprehension in `YOLOv8Detector.nms`:
`self.iou(best, det) < iou_threshold or best[5] != det[5]`. -/
def nmsKeep (u : ℚ) (best det : Det) : Prop := iou best det < u ∨ best.cls ≠ det.cls

instance (u : ℚ) (best det : Det) : Decidable (nmsKeep u best det) :=
  inferInstanceAs (Decidable (_ ∨ _))

/-- The `while` loop of `YOLOv8Detector.nms`: pop the highest-confidence
detection, keep it, and drop every remaining detection that fails
`nmsKeep` against it. -/
def nmsLoop (u : ℚ) : List Det → List Det
  | [] => []
  | best :: rest =>
      best :: nmsLoop u (rest.filter fun det => decide (nmsKeep u best det))
termination_by l => l.length
decreasing_by
  simp only [List.length_cons]
  exact Nat.lt_succ_of_le (List.length_filter_le _ _)

/-- `YOLOv8Detector.nms`: return `[]` on an empty input, otherwise run the
greedy loop on the list stably sorted by confidence descending. -/
def nms (detections : List Det) (iou_threshold : ℚ) : List Det :=
  if detections = [] then []
  else nmsLoop iou_threshold (List.insertionSort confGe detections)

theorem nmsLoop_sublist (u : ℚ) (l : List Det) : (nmsLoop u l).Sublist l := by
  induction l using nmsLoop.induct u with
  | case1 => simp [nmsLoop]
  | case2 best rest ih =>
      rw [nmsLoop]
      exact (ih.trans (List.filter_sublist rest)).cons₂ best

theorem nmsLoop_pairwise (u : ℚ) (l : List Det) :
    (nmsLoop u l).Pairwise (nmsKeep u) := by
  induction l using nmsLoop.induct u with
  | case1 => simp [nmsLoop]
  | case2 best rest ih =>
      rw [nmsLoop]
      refine List.Pairwise.cons (fun b hb => ?_) ih
      have hb' := (nmsLoop_sublist u _).subset hb
      exact of_decide_eq_true (List.mem_filter.mp hb').2

theorem nmsLoop_of_pairwise (u : ℚ) (l : List Det)
    (h : l.Pairwise (nmsKeep u)) : nmsLoop u l = l := by
  induction l using nmsLoop.induct u with
  | case1 => simp [nmsLoop]
  | case2 best rest ih =>
      rw [List.pairwise_cons] at h
      have hf : rest.filter (fun det => decide (nmsKeep u best det)) = rest :=
        List.filter_eq_self.mpr fun b hb => decide_eq_true (h.1 b hb)
      rw [hf] at ih
      rw [nmsLoop, hf, ih h.2]

theorem nmsLoop_sorted (u : ℚ) (l : List Det) (h : l.Sorted confGe) :
    (nmsLoop u l).Sorted confGe :=
  h.sublist (nmsLoop_sublist u l)

theorem orderedInsert_eq_cons (a : Det) (m : List Det)
    (h : ∀ x ∈ m, confGe a x) : List.orderedInsert confGe a m = a :: m := by
  cases m with
  | nil => rfl
  | cons b t =>
      simp only [List.orderedInsert, if_pos (h b (List.mem_cons_self b t))]

theorem filter_orderedInsert (q : Det → Bool) (a : Det) (l : List Det)
    (hl : l.Sorted confGe) :
    (List.orderedInsert confGe a l).filter q =
      if q a then List.orderedInsert confGe a (l.filter q) else l.filter q := by
  induction l with
  | nil =>
      simp only [List.orderedInsert, List.filter]
      cases hqa : q a <;> simp [List.orderedInsert]
  | cons b t ih =>
      have hbt : ∀ x ∈ t, confGe b x := List.rel_of_sorted_cons hl
      have htl : t.Sorted confGe := hl.of_cons
      by_cases hab : confGe a b
      · rw [List.orderedInsert_of_le confGe t hab]
        have hall : ∀ x ∈ (b :: t).filter q, confGe a x := by
          intro x hx
          have hx' := List.mem_of_mem_filter hx
          rcases List.mem_cons.mp hx' with rfl | hxt
          · exact hab
          · exact Trans.trans hab (hbt x hxt)
        cases hqa : q a with
        | true =>
            rw [orderedInsert_eq_cons a _ hall]
            simp [List.filter, hqa]
        | false =>
            simp [List.filter, hqa]
      · have : List.orderedInsert confGe a (b :: t) =
            b :: List.orderedInsert confGe a t := by
          simp only [List.orderedInsert, if_neg hab]
        rw [this]
        cases hqa : q a with
        | true =>
            cases hqb : q b with
            | true =>
                have : List.orderedInsert confGe a (b :: t.filter q) =
                    b :: List.orderedInsert confGe a (t.filter q) := by
                  simp only [List.orderedInsert, if_neg hab]
                simp [List.filter, hqb, ih htl, hqa, this]
            | false =>
                simp [List.filter, hqb, ih htl, hqa]
        | false =>
            cases hqb : q b with
            | true => simp [List.filter, hqb, ih htl, hqa]
            | false => simp [List.filter, hqb, ih htl, hqa]

theorem filter_insertionSort (q : Det → Bool) (l : List Det) :
    (List.insertionSort confGe l).filter q =
      List.insertionSort confGe (l.filter q) := by
  induction l with
  | nil => rfl
  | cons a t ih =>
      have hs : (List.insertionSort confGe t).Sorted confGe :=
        List.sorted_insertionSort confGe t
      cases hqa : q a with
      | true =>
          simp only [List.insertionSort, List.filter, hqa,
            filter_orderedInsert q a _ hs, if_pos, ih]
      | false =>
          simp only [List.insertionSort, List.filter, hqa,
            filter_orderedInsert q a _ hs, if_neg, ih]
          simp [ih]

theorem filter_nmsLoop (u : ℚ) (c : ℕ) (l : List Det) :
    (nmsLoop u l).filter (fun d => decide (d.cls = c)) =
      nmsLoop u (l.filter (fun d => decide (d.cls = c))) := by
  induction l using nmsLoop.induct u with
  | case1 => simp [nmsLoop]
  | case2 best rest ih =>
      rw [nmsLoop]
      by_cases hc : best.cls = c
      · rw [List.filter_cons_of_pos (by simpa using hc), ih, List.filter_comm,
          List.filter_cons_of_pos (by simpa using hc), nmsLoop]
      · rw [List.filter_cons_of_neg (by simpa using hc), ih, List.filter_comm,
          List.filter_cons_of_neg (by simpa using hc)]
        congr 1
        refine List.filter_eq_self.mpr fun d hd => ?_
        have hdc : d.cls = c := by simpa using (List.mem_filter.mp hd).2
        exact decide_eq_true (Or.inr (fun hbd => hc (hbd ▸ hdc)))

/-- C1: for every DetectionSet and IoU threshold `u ∈ [0,1]`, the NMS output
contains no two surviving detections of the same class with IoU ≥ `u`
(any earlier-kept detection has IoU < `u` with any later-kept one of the same
class), and classes never suppress each other: restricting the output to any
single class gives exactly the result of running NMS on that class alone. -/
theorem nms_same_class_separated (l : List Det) (u : ℚ) (c : ℕ)
    (h0 : 0 ≤ u) (h1 : u ≤ 1) :
    (nms l u).Pairwise (fun a b => a.cls = b.cls → iou a b < u) ∧
    (nms l u).filter (fun d => decide (d.cls = c)) =
      nms (l.filter (fun d => decide (d.cls = c))) u := by
  constructor
  · by_cases hl : l = []
    · simp [nms, hl]
    · rw [nms, if_neg hl]
      refine (nmsLoop_pairwise u _).imp ?_
      intro a b hk hcls
      rcases hk with h | h
      · exact h
      · exact absurd hcls h
  · by_cases hl : l = []
    · simp [nms, hl]
    · rw [nms, if_neg hl, filter_nmsLoop, filter_insertionSort]
      by_cases hf : l.filter (fun d => decide (d.cls = c)) = []
      · rw [hf]
        simp [nms, nmsLoop]
      · rw [nms, if_neg hf]

/-- Witness for C1: two fully-overlapping boxes with different `class_id`,
threshold `1/2 ∈ [0,1]`. -/
theorem nms_same_class_separated_witness :
    (0 : ℚ) ≤ 1/2 ∧ (1/2 : ℚ) ≤ 1 ∧
    ((nms [⟨0, 0, 10, 10, 9/10, 0⟩, ⟨0, 0, 10, 10, 8/10, 1⟩] (1/2)).Pairwise
        (fun a b => a.cls = b.cls → iou a b < 1/2) ∧
      (nms [⟨0, 0, 10, 10, 9/10, 0⟩, ⟨0, 0, 10, 10, 8/10, 1⟩] (1/2)).filter
          (fun d => decide (d.cls = 0)) =
        nms ([⟨0, 0, 10, 10, 9/10, 0⟩, ⟨0, 0, 10, 10, 8/10, 1⟩].filter
          (fun d => decide (d.cls = 0))) (1/2)) :=
  ⟨by norm_num, by norm_num,
    nms_same_class_separated [⟨0, 0, 10, 10, 9/10, 0⟩, ⟨0, 0, 10, 10, 8/10, 1⟩]
      (1/2) 0 (by norm_num) (by norm_num)⟩

/-- C7: NMS is idempotent: applying `nms` to its own output with the same
threshold removes nothing further. -/
theorem nms_idempotent (l : List Det) (u : ℚ) : nms (nms l u) u = nms l u := by
  by_cases hl : l = []
  · simp [nms, hl]
  · have hout : nms l u = nmsLoop u (List.insertionSort confGe l) := by
      rw [nms, if_neg hl]
    by_cases ho : nms l u = []
    · rw [ho]; simp [nms]
    · rw [nms, if_neg ho, hout]
      have hsorted : (nmsLoop u (List.insertionSort confGe l)).Sorted confGe :=
        nmsLoop_sorted u _ (List.sorted_insertionSort confGe l)
      rw [hsorted.insertionSort_eq]
      exact nmsLoop_of_pairwise u _ (nmsLoop_pairwise u _)

/-- C10: on a non-empty DetectionSet the NMS output is non-empty and its
first element is a detection of maximal confidence in the input. -/
theorem nms_head_max (l : List Det) (u : ℚ) (h : l ≠ []) :
    ∃ m, (nms l u).head? = some m ∧ m ∈ l ∧ ∀ d ∈ l, d.conf ≤ m.conf := by
  have hperm : List.Perm (List.insertionSort confGe l) l :=
    List.perm_insertionSort confGe l
  have hsne : List.insertionSort confGe l ≠ [] := by
    intro hnil
    exact h (List.perm_nil.mp (hnil ▸ hperm).symm)
  obtain ⟨b, t, hbt⟩ := List.exists_cons_of_ne_nil hsne
  refine ⟨b, ?_, ?_, ?_⟩
  · rw [nms, if_neg h, hbt, nmsLoop]
    rfl
  · exact hperm.subset (hbt ▸ List.mem_cons_self b t)
  · intro d hd
    have hd' : d ∈ b :: t := hbt ▸ hperm.symm.subset hd
    have hsorted : (b :: t).Sorted confGe := hbt ▸ List.sorted_insertionSort confGe l
    rcases List.mem_cons.mp hd' with rfl | hdt
    · exact le_refl _
    · exact List.rel_of_sorted_cons hsorted d hdt

/-- Witness for C10 on a concrete two-element DetectionSet. -/
theorem nms_head_max_witness :
    ([⟨0, 0, 1, 1, 3/10, 2⟩, ⟨5, 5, 1, 1, 7/10, 1⟩] : List Det) ≠ [] ∧
    ∃ m, (nms [⟨0, 0, 1, 1, 3/10, 2⟩, ⟨5, 5, 1, 1, 7/10, 1⟩] (1/2)).head? = some m ∧
      m ∈ ([⟨0, 0, 1, 1, 3/10, 2⟩, ⟨5, 5, 1, 1, 7/10, 1⟩] : List Det) ∧
      ∀ d ∈ ([⟨0, 0, 1, 1, 3/10, 2⟩, ⟨5, 5, 1, 1, 7/10, 1⟩] : List Det),
        d.conf ≤ m.conf :=
  ⟨by simp, nms_head_max [⟨0, 0, 1, 1, 3/10, 2⟩, ⟨5, 5, 1, 1, 7/10, 1⟩] (1/2) (by simp)⟩

/-- Python `int(...)` applied to an exact rational: truncation toward zero. -/
def pyInt (q : ℚ) : ℤ := if 0 ≤ q then ⌊q⌋ else ⌈q⌉

/-- The clamp `max(0, min(v, bound))` from `YOLOv8Detector.postprocess`. -/
def clampTo (v bound : ℤ) : ℤ := max 0 (min v bound)

/-- The coordinate conversion of `YOLOv8Detector.postprocess`: normalized
center box to integer corner coordinates, clamped to the image bounds, then
returned as `(x1, y1, x2 - x1, y2 - y1)`. -/
def coordMap (img_width img_height : ℤ) (x_center y_center width height : ℚ) :
    ℤ × ℤ × ℤ × ℤ :=
  let x1 := clampTo (pyInt ((x_center - width / 2) * (img_width : ℚ))) img_width
  let y1 := clampTo (pyInt ((y_center - height / 2) * (img_height : ℚ))) img_height
  let x2 := clampTo (pyInt ((x_center + width / 2) * (img_width : ℚ))) img_width
  let y2 := clampTo (pyInt ((y_center + height / 2) * (img_height : ℚ))) img_height
  (x1, y1, x2 - x1, y2 - y1)

theorem pyInt_mono {a b : ℚ} (h : a ≤ b) : pyInt a ≤ pyInt b := by
  unfold pyInt
  split_ifs with ha hb hb
  · exact Int.floor_le_floor h
  · exact absurd (ha.trans h) hb
  · calc ⌈a⌉ ≤ 0 := Int.ceil_le.mpr (by exact_mod_cast le_of_not_le ha)
      _ ≤ ⌊b⌋ := Int.le_floor.mpr (by exact_mod_cast hb)
  · exact Int.ceil_le_ceil h

theorem clampTo_nonneg (v bound : ℤ) : 0 ≤ clampTo v bound := le_max_left 0 _

theorem clampTo_le_bound (v bound : ℤ) (h : 0 ≤ bound) : clampTo v bound ≤ bound :=
  max_le h (min_le_right v bound)

theorem clampTo_mono {v v' : ℤ} (bound : ℤ) (h : v ≤ v') :
    clampTo v bound ≤ clampTo v' bound :=
  max_le_max (le_refl 0) (min_le_min h (le_refl bound))

/-- C3 (amended): for any positive image dimensions and any normalized inputs,
the mapped box `(x, y, w, h)` satisfies `0 ≤ x`, `x + w ≤ img_width`,
`0 ≤ y`, `y + h ≤ img_height` (the closed region), and `w, h ≥ 0` whenever the
normalized width and height are nonnegative. -/
theorem coordMap_in_bounds (iw ih : ℤ) (xc yc wd ht : ℚ)
    (hw : 0 < iw) (hh : 0 < ih) :
    0 ≤ (coordMap iw ih xc yc wd ht).1 ∧
    (coordMap iw ih xc yc wd ht).1 + (coordMap iw ih xc yc wd ht).2.2.1 ≤ iw ∧
    0 ≤ (coordMap iw ih xc yc wd ht).2.1 ∧
    (coordMap iw ih xc yc wd ht).2.1 + (coordMap iw ih xc yc wd ht).2.2.2 ≤ ih ∧
    (0 ≤ wd → 0 ≤ (coordMap iw ih xc yc wd ht).2.2.1) ∧
    (0 ≤ ht → 0 ≤ (coordMap iw ih xc yc wd ht).2.2.2) := by
  have hx1 : (coordMap iw ih xc yc wd ht).1 =
      clampTo (pyInt ((xc - wd / 2) * (iw : ℚ))) iw := rfl
  have hy1 : (coordMap iw ih xc yc wd ht).2.1 =
      clampTo (pyInt ((yc - ht / 2) * (ih : ℚ))) ih := rfl
  have hw2 : (coordMap iw ih xc yc wd ht).2.2.1 =
      clampTo (pyInt ((xc + wd / 2) * (iw : ℚ))) iw -
        clampTo (pyInt ((xc - wd / 2) * (iw : ℚ))) iw := rfl
  have hh2 : (coordMap iw ih xc yc wd ht).2.2.2 =
      clampTo (pyInt ((yc + ht / 2) * (ih : ℚ))) ih -
        clampTo (pyInt ((yc - ht / 2) * (ih : ℚ))) ih := rfl
  rw [hx1, hy1, hw2, hh2]
  have hx2b := clampTo_le_bound (pyInt ((xc + wd / 2) * (iw : ℚ))) iw hw.le
  have hy2b := clampTo_le_bound (pyInt ((yc + ht / 2) * (ih : ℚ))) ih hh.le
  refine ⟨clampTo_nonneg _ _, by omega, clampTo_nonneg _ _, by omega, ?_, ?_⟩
  · intro hwd
    have harg : (xc - wd / 2) * (iw : ℚ) ≤ (xc + wd / 2) * (iw : ℚ) := by
      have : (0 : ℚ) ≤ (iw : ℚ) := by exact_mod_cast hw.le
      nlinarith
    have := clampTo_mono iw (pyInt_mono harg)
    omega
  · intro hht
    have harg : (yc - ht / 2) * (ih : ℚ) ≤ (yc + ht / 2) * (ih : ℚ) := by
      have : (0 : ℚ) ≤ (ih : ℚ) := by exact_mod_cast hh.le
      nlinarith
    have := clampTo_mono ih (pyInt_mono harg)
    omega

/-- Witness for C3 (amended) at a concrete off-frame box. -/
theorem coordMap_in_bounds_witness :
    (0 : ℤ) < 320 ∧ (0 : ℤ) < 240 ∧
    (0 ≤ (coordMap 320 240 (3/2) (1/2) (1/5) (1/5)).1 ∧
      (coordMap 320 240 (3/2) (1/2) (1/5) (1/5)).1 +
        (coordMap 320 240 (3/2) (1/2) (1/5) (1/5)).2.2.1 ≤ 320 ∧
      0 ≤ (coordMap 320 240 (3/2) (1/2) (1/5) (1/5)).2.1 ∧
      (coordMap 320 240 (3/2) (1/2) (1/5) (1/5)).2.1 +
        (coordMap 320 240 (3/2) (1/2) (1/5) (1/5)).2.2.2 ≤ 240 ∧
      (0 ≤ (1/5 : ℚ) → 0 ≤ (coordMap 320 240 (3/2) (1/2) (1/5) (1/5)).2.2.1) ∧
      (0 ≤ (1/5 : ℚ) → 0 ≤ (coordMap 320 240 (3/2) (1/2) (1/5) (1/5)).2.2.2)) :=
  ⟨by decide, by decide,
    coordMap_in_bounds 320 240 (3/2) (1/2) (1/5) (1/5) (by decide) (by decide)⟩

theorem pyInt_eval (q : ℚ) (n : ℤ) (h0 : 0 ≤ q) (h1 : (n : ℚ) ≤ q)
    (h2 : q < n + 1) : pyInt q = n := by
  unfold pyInt
  rw [if_pos h0]
  exact Int.floor_eq_iff.mpr ⟨h1, h2⟩

/-- C3 counterexample: the claim as stated fails.  A box that exactly fills
the frame (`x_center = 1/2`, `width = 1`, fully inside normalized bounds) maps
to `(0, 0, 320, 320)`, whose right edge `x + w = 320` is NOT strictly inside
the half-open `[0, 320)`; and a (claim-permitted) out-of-range negative width
produces `w = -160 < 0`. -/
theorem coordMap_claim_cex :
    ¬((coordMap 320 320 (1/2) (1/2) 1 1).1 +
        (coordMap 320 320 (1/2) (1/2) 1 1).2.2.1 < 320) ∧
    ¬(0 ≤ (coordMap 320 320 (1/2) (1/2) (-(1/2)) (1/5)).2.2.1) := by
  have hx1 : pyInt ((1 / 2 - 1 / 2) * ((320 : ℤ) : ℚ)) = 0 :=
    pyInt_eval _ 0 (by norm_num) (by norm_num) (by norm_num)
  have hx2 : pyInt ((1 / 2 + 1 / 2) * ((320 : ℤ) : ℚ)) = 320 :=
    pyInt_eval _ 320 (by norm_num) (by norm_num) (by norm_num)
  have hA : coordMap 320 320 (1/2) (1/2) 1 1 = (0, 0, 320, 320) := by
    simp only [coordMap, hx1, hx2]
    decide
  have hb1 : pyInt ((1 / 2 - -(1 / 2) / 2) * ((320 : ℤ) : ℚ)) = 240 :=
    pyInt_eval _ 240 (by norm_num) (by norm_num) (by norm_num)
  have hb2 : pyInt ((1 / 2 + -(1 / 2) / 2) * ((320 : ℤ) : ℚ)) = 80 :=
    pyInt_eval _ 80 (by norm_num) (by norm_num) (by norm_num)
  have hb3 : pyInt ((1 / 2 - 1 / 5 / 2) * ((320 : ℤ) : ℚ)) = 128 :=
    pyInt_eval _ 128 (by norm_num) (by norm_num) (by norm_num)
  have hb4 : pyInt ((1 / 2 + 1 / 5 / 2) * ((320 : ℤ) : ℚ)) = 192 :=
    pyInt_eval _ 192 (by norm_num) (by norm_num) (by norm_num)
  have hB : coordMap 320 320 (1/2) (1/2) (-(1/2)) (1/5) = (240, 128, -160, 64) := by
    simp only [coordMap, hb1, hb2, hb3, hb4]
    decide
  constructor
  · rw [hA]; decide
  · rw [hB]; decide

/-- Python `max(class_scores)` on a non-empty list (left fold of binary max;
`max([])` raises, which the caller's guard models). -/
def listMax : List ℚ → ℚ
  | [] => 0
  | a :: rest => rest.foldl max a

/-- Python `class_scores.index(max_conf)`: index of the first occurrence. -/
def idxOf : List ℚ → ℚ → ℕ
  | [], _ => 0
  | a :: rest, v => if a = v then 0 else idxOf rest v + 1

theorem le_foldl_max (l : List ℚ) (a : ℚ) : a ≤ l.foldl max a := by
  induction l generalizing a with
  | nil => exact le_refl a
  | cons b t ih => exact le_trans (le_max_left a b) (ih (max a b))

theorem mem_le_foldl_max (l : List ℚ) (a x : ℚ) (hx : x ∈ l) :
    x ≤ l.foldl max a := by
  induction l generalizing a with
  | nil => cases hx
  | cons b t ih =>
      rcases List.mem_cons.mp hx with rfl | hxt
      · exact le_trans (le_max_right a x) (le_foldl_max t (max a x))
      · exact ih (max a b) hxt

theorem foldl_max_mem (l : List ℚ) (a : ℚ) : l.foldl max a = a ∨ l.foldl max a ∈ l := by
  induction l generalizing a with
  | nil => exact Or.inl rfl
  | cons b t ih =>
      rcases ih (max a b) with h | h
      · rcases max_choice a b with hm | hm
        · exact Or.inl (by rw [List.foldl_cons, h, hm])
        · exact Or.inr (by rw [List.foldl_cons, h, hm]; exact List.mem_cons_self b t)
      · exact Or.inr (List.mem_cons_of_mem b h)

theorem listMax_mem (l : List ℚ) (hl : l ≠ []) : listMax l ∈ l := by
  cases l with
  | nil => exact absurd rfl hl
  | cons a t =>
      rcases foldl_max_mem t a with h | h
      · rw [listMax, h]; exact List.mem_cons_self a t
      · exact List.mem_cons_of_mem a h

theorem le_listMax (l : List ℚ) (x : ℚ) (hx : x ∈ l) : x ≤ listMax l := by
  cases l with
  | nil => cases hx
  | cons a t =>
      rcases List.mem_cons.mp hx with rfl | hxt
      · exact le_foldl_max t x
      · exact mem_le_foldl_max t a x hxt

theorem idxOf_lt_length (l : List ℚ) (v : ℚ) (hv : v ∈ l) : idxOf l v < l.length := by
  induction l with
  | nil => cases hv
  | cons a t ih =>
      rw [idxOf]
      by_cases hav : a = v
      · rw [if_pos hav]; exact Nat.succ_pos _
      · rw [if_neg hav]
        have hvt : v ∈ t := by
          rcases List.mem_cons.mp hv with rfl | h
          · exact absurd rfl hav
          · exact h
        exact Nat.succ_lt_succ (ih hvt)

theorem getD_idxOf (l : List ℚ) (v : ℚ) (hv : v ∈ l) : l.getD (idxOf l v) 0 = v := by
  induction l with
  | nil => cases hv
  | cons a t ih =>
      rw [idxOf]
      by_cases hav : a = v
      · rw [if_pos hav]; exact hav
      · rw [if_neg hav]
        have hvt : v ∈ t := by
          rcases List.mem_cons.mp hv with rfl | h
          · exact absurd rfl hav
          · exact h
        simpa using ih hvt

theorem getD_lt_idxOf_ne (l : List ℚ) (v : ℚ) (j : ℕ) (hj : j < idxOf l v) :
    l.getD j 0 ≠ v := by
  induction l generalizing j with
  | nil => simp [idxOf] at hj
  | cons a t ih =>
      rw [idxOf] at hj
      by_cases hav : a = v
      · rw [if_pos hav] at hj; cases hj
      · rw [if_neg hav] at hj
        cases j with
        | zero => simpa using hav
        | succ k => simpa using ih k (Nat.lt_of_succ_lt_succ hj)

/-- Decoding of one well-formed prediction row in
`YOLOv8Detector.postprocess`: unpack `pred[:4]`, take `class_scores = pred[4:]`,
`max_conf = max(class_scores)`, `class_id = class_scores.index(max_conf)`,
convert/clamp coordinates and build the detection tuple. -/
def decodeOne (img_width img_height : ℤ) (pred : List ℚ) : Det :=
  let class_scores := pred.drop 4
  let max_conf := listMax class_scores
  let class_id := idxOf class_scores max_conf
  let b := coordMap img_width img_height (pred.getD 0 0) (pred.getD 1 0)
    (pred.getD 2 0) (pred.getD 3 0)
  ⟨(b.1 : ℚ), (b.2.1 : ℚ), (b.2.2.1 : ℚ), (b.2.2.2 : ℚ), max_conf, class_id⟩

/-- The decode loop of `YOLOv8Detector.postprocess` over the prediction rows,
including its exception behaviour: the whole loop body is wrapped in one
`try`, so a malformed row (fewer than 5 entries, i.e. the unpacking of
`pred[:4]` or `max(pred[4:])` raises) ends the loop, keeping the detections
accumulated so far; a row below the confidence threshold is skipped
(`continue`); otherwise the decoded detection is appended. -/
def decodeRows (img_width img_height : ℤ) (conf_thresh : ℚ) :
    List (List ℚ) → List Det
  | [] => []
  | pred :: rest =>
      if 5 ≤ pred.length then
        if listMax (pred.drop 4) < conf_thresh then
          decodeRows img_width img_height conf_thresh rest
        else
          decodeOne img_width img_height pred ::
            decodeRows img_width img_height conf_thresh rest
      else []

/-- `YOLOv8Detector.postprocess`: decode all rows then apply NMS. -/
def postprocess (img_width img_height : ℤ) (conf_thresh iou_thresh : ℚ)
    (outputs : List (List ℚ)) : List Det :=
  nms (decodeRows img_width img_height conf_thresh outputs) iou_thresh

theorem decodeRows_wf_eq (iw ih : ℤ) (t : ℚ) (rows : List (List ℚ))
    (hwf : ∀ r ∈ rows, 5 ≤ r.length) :
    decodeRows iw ih t rows =
      (rows.filter fun r => decide (t ≤ listMax (r.drop 4))).map (decodeOne iw ih) := by
  induction rows with
  | nil => rfl
  | cons r rest ih2 =>
      have hr := hwf r (List.mem_cons_self r rest)
      have hrest : ∀ x ∈ rest, 5 ≤ x.length :=
        fun x hx => hwf x (List.mem_cons_of_mem r hx)
      rw [decodeRows, if_pos hr]
      by_cases hlt : listMax (r.drop 4) < t
      · rw [if_pos hlt, ih2 hrest, List.filter_cons,
          decide_eq_false (not_le.mpr hlt)]
        simp
      · rw [if_neg hlt, ih2 hrest, List.filter_cons,
          decide_eq_true (not_lt.mp hlt)]
        simp

/-- C2: on a well-formed raw output tensor the decode stage emits exactly one
detection per row whose maximum class score is at least the threshold (in
order) and none below it; each emitted detection's confidence is the row's
maximum class score and its class id is the lowest index attaining that
maximum. -/
theorem decoder_filter_argmax (iw ih : ℤ) (t : ℚ) (rows : List (List ℚ))
    (hwf : ∀ r ∈ rows, 5 ≤ r.length) :
    decodeRows iw ih t rows =
      (rows.filter fun r => decide (t ≤ listMax (r.drop 4))).map (decodeOne iw ih) ∧
    ∀ r ∈ rows,
      (decodeOne iw ih r).conf = listMax (r.drop 4) ∧
      (decodeOne iw ih r).cls < (r.drop 4).length ∧
      (r.drop 4).getD (decodeOne iw ih r).cls 0 = listMax (r.drop 4) ∧
      (∀ j < (decodeOne iw ih r).cls, (r.drop 4).getD j 0 ≠ listMax (r.drop 4)) ∧
      (∀ s ∈ r.drop 4, s ≤ listMax (r.drop 4)) := by
  refine ⟨decodeRows_wf_eq iw ih t rows hwf, fun r hr => ?_⟩
  have hlen : 5 ≤ r.length := hwf r hr
  have hne : r.drop 4 ≠ [] := by
    have : 0 < (r.drop 4).length := by
      rw [List.length_drop]
      omega
    exact List.ne_nil_of_length_pos this
  have hmem : listMax (r.drop 4) ∈ r.drop 4 := listMax_mem _ hne
  have hconf : (decodeOne iw ih r).conf = listMax (r.drop 4) := rfl
  have hcls : (decodeOne iw ih r).cls = idxOf (r.drop 4) (listMax (r.drop 4)) := rfl
  refine ⟨hconf, ?_, ?_, ?_, fun s hs => le_listMax _ s hs⟩
  · rw [hcls]; exact idxOf_lt_length _ _ hmem
  · rw [hcls]; exact getD_idxOf _ _ hmem
  · intro j hj
    rw [hcls] at hj
    exact getD_lt_idxOf_ne _ _ j hj

/-- Witness for C2 on the spec's Scenario 1 row (C = 2, threshold 1/2). -/
theorem decoder_filter_argmax_witness :
    (∀ r ∈ [[(1:ℚ)/2, 1/2, 1/5, 1/5, 9/10, 1/10]], 5 ≤ r.length) ∧
    (decodeRows 320 320 (1/2) [[(1:ℚ)/2, 1/2, 1/5, 1/5, 9/10, 1/10]] =
      ([[(1:ℚ)/2, 1/2, 1/5, 1/5, 9/10, 1/10]].filter
        fun r => decide ((1:ℚ)/2 ≤ listMax (r.drop 4))).map (decodeOne 320 320) ∧
    ∀ r ∈ [[(1:ℚ)/2, 1/2, 1/5, 1/5, 9/10, 1/10]],
      (decodeOne 320 320 r).conf = listMax (r.drop 4) ∧
      (decodeOne 320 320 r).cls < (r.drop 4).length ∧
      (r.drop 4).getD (decodeOne 320 320 r).cls 0 = listMax (r.drop 4) ∧
      (∀ j < (decodeOne 320 320 r).cls, (r.drop 4).getD j 0 ≠ listMax (r.drop 4)) ∧
      (∀ s ∈ r.drop 4, s ≤ listMax (r.drop 4))) :=
  ⟨by simp, decoder_filter_argmax 320 320 (1/2)
    [[(1:ℚ)/2, 1/2, 1/5, 1/5, 9/10, 1/10]] (by simp)⟩

/-- C4 (amended): a malformed row does not raise to the caller, but because
the single `try` in `postprocess` wraps the whole decode loop, it aborts the
remaining iterations: rows before the malformed one are decoded normally and
the malformed row together with every row after it is dropped. -/
theorem decodeRows_malformed_aborts (iw ih : ℤ) (t : ℚ) (pre post : List (List ℚ))
    (bad : List ℚ) (hpre : ∀ r ∈ pre, 5 ≤ r.length) (hbad : bad.length < 5) :
    decodeRows iw ih t (pre ++ bad :: post) = decodeRows iw ih t pre := by
  induction pre with
  | nil =>
      have hnb : ¬ (5 ≤ bad.length) := by omega
      simp [decodeRows, hnb]
  | cons r rest ih2 =>
      have hr := hpre r (List.mem_cons_self r rest)
      have hrest : ∀ x ∈ rest, 5 ≤ x.length :=
        fun x hx => hpre x (List.mem_cons_of_mem r hx)
      rw [List.cons_append, decodeRows, decodeRows, if_pos hr, if_pos hr]
      by_cases hlt : listMax (r.drop 4) < t
      · rw [if_pos hlt, if_pos hlt, ih2 hrest]
      · rw [if_neg hlt, if_neg hlt, ih2 hrest]

/-- Witness for C4 (amended): one well-formed row before and one after an
empty (malformed) row. -/
theorem decodeRows_malformed_aborts_witness :
    (∀ r ∈ [[(1:ℚ)/2, 1/2, 1/5, 1/5, 9/10]], 5 ≤ r.length) ∧
    ([] : List ℚ).length < 5 ∧
    decodeRows 320 320 (1/2)
        ([[(1:ℚ)/2, 1/2, 1/5, 1/5, 9/10]] ++
          ([] : List ℚ) :: [[(1:ℚ)/2, 1/2, 1/5, 1/5, 9/10]]) =
      decodeRows 320 320 (1/2) [[(1:ℚ)/2, 1/2, 1/5, 1/5, 9/10]] :=
  ⟨by simp, by simp,
    decodeRows_malformed_aborts 320 320 (1/2) [[(1:ℚ)/2, 1/2, 1/5, 1/5, 9/10]]
      [[(1:ℚ)/2, 1/2, 1/5, 1/5, 9/10]] [] (by simp) (by simp)⟩

/-- C4 counterexample: with one malformed (empty) row between two well-formed
above-threshold rows, the decode stage emits only the detection of the first
row — the well-formed row after the malformed one is NOT decoded -- whereas
the same tensor without the malformed row yields two detections. -/
theorem decode_malformed_cex :
    (decodeRows 320 320 (1/2)
        [[(1:ℚ)/2, 1/2, 1/5, 1/5, 9/10], [], [(1:ℚ)/2, 1/2, 1/5, 1/5, 9/10]]).length
      = 1 ∧
    (decodeRows 320 320 (1/2)
        [[(1:ℚ)/2, 1/2, 1/5, 1/5, 9/10], [(1:ℚ)/2, 1/2, 1/5, 1/5, 9/10]]).length
      = 2 := by
  have hmax : listMax (List.drop 4 [(1:ℚ)/2, 1/2, 1/5, 1/5, 9/10]) = 9/10 := by
    simp [listMax]
  constructor
  · rw [decodeRows, if_pos (by simp), if_neg (by rw [hmax]; norm_num),
      decodeRows, if_neg (by simp)]
    rfl
  · rw [decodeRows, if_pos (by simp), if_neg (by rw [hmax]; norm_num),
      decodeRows, if_pos (by simp), if_neg (by rw [hmax]; norm_num)]
    rfl

/-- The FPS-tracking state of `YOLOv8Detector`: `self.frame_count`,
`self.fps`, `self.last_time` (milliseconds). -/
structure FpsState where
  frame_count : ℕ
  fps : ℕ
  last_time : ℤ
deriving DecidableEq, Repr

/-- `time.ticks_diff(current, last)` with no wraparound in range: the signed
millisecond difference. -/
def ticks_diff (current last : ℤ) : ℤ := current - last

/-- `YOLOv8Detector.update_fps`: increment the frame counter; if at least
1000ms elapsed since the last reset, publish the counter as the FPS, zero it
and reset the timestamp. -/
def update_fps (s : FpsState) (current_time : ℤ) : FpsState :=
  let fc := s.frame_count + 1
  if 1000 ≤ ticks_diff current_time s.last_time then
    { frame_count := 0, fps := fc, last_time := current_time }
  else
    { frame_count := fc, fps := s.fps, last_time := s.last_time }

theorem foldl_update_fps_within (ts : List ℤ) (k f : ℕ)
    (hin : ∀ x ∈ ts, ticks_diff x 0 < 1000) :
    ts.foldl update_fps ⟨k, f, 0⟩ = ⟨k + ts.length, f, 0⟩ := by
  induction ts generalizing k with
  | nil => simp
  | cons x ts ih =>
      have hx : ¬ (1000 ≤ ticks_diff x 0) :=
        not_le.mpr (hin x (List.mem_cons_self x ts))
      have hrest : ∀ y ∈ ts, ticks_diff y 0 < 1000 :=
        fun y hy => hin y (List.mem_cons_of_mem x hy)
      rw [List.foldl_cons]
      have hstep : update_fps ⟨k, f, 0⟩ x = ⟨k + 1, f, 0⟩ := by
        rw [update_fps, if_neg hx]
      rw [hstep, ih (k + 1) hrest]
      simp [List.length_cons]
      omega

/-- C5 (amended): after 30 ticks inside the first 1000ms window (counter
reaches 30 with no rollover), one more tick at 1001ms publishes FPS = 31 —
the window-closing tick increments the counter before the elapsed-time check,
so it is itself counted — then the counter resets to 0 and the timestamp to
1001. -/
theorem fps_first_window_reports (ts : List ℤ) (h30 : ts.length = 30)
    (hin : ∀ x ∈ ts, ticks_diff x 0 < 1000) :
    update_fps (ts.foldl update_fps ⟨0, 0, 0⟩) 1001 =
      ⟨0, 31, 1001⟩ := by
  rw [foldl_update_fps_within ts 0 0 hin, h30]
  rw [update_fps, if_pos (by norm_num [ticks_diff])]

/-- Witness for C5 (amended): 30 concrete ticks at 5ms. -/
theorem fps_first_window_reports_witness :
    (List.replicate 30 (5 : ℤ)).length = 30 ∧
    (∀ x ∈ List.replicate 30 (5 : ℤ), ticks_diff x 0 < 1000) ∧
    update_fps ((List.replicate 30 (5 : ℤ)).foldl update_fps ⟨0, 0, 0⟩) 1001 =
      ⟨0, 31, 1001⟩ :=
  ⟨by decide, by decide,
    fps_first_window_reports (List.replicate 30 (5 : ℤ)) (by decide) (by decide)⟩

set_option maxRecDepth 20000 in
/-- C5 counterexample: with 30 ticks inside the window (at 0..29ms) and one
more at 1001ms, the published FPS is 31, not 30 as the claim states: the
boundary tick increments `frame_count` to 31 before the `>= 1000` check
publishes it. -/
theorem fps_first_window_cex :
    (update_fps (((List.range 30).map (fun i => (i : ℤ))).foldl update_fps
        ⟨0, 0, 0⟩) 1001).fps = 31 ∧
    (update_fps (((List.range 30).map (fun i => (i : ℤ))).foldl update_fps
        ⟨0, 0, 0⟩) 1001).fps ≠ 30 := by
  constructor <;> decide

/-- One processed frame of `YOLOv8Detector.run` as far as FPS and memory
reclamation are concerned: `self.update_fps()` followed by
`if self.frame_count % 10 == 0: gc.collect()` — note the check reads the
same `self.frame_count` that `update_fps` resets on a window rollover.
Returns the new state and whether `gc.collect()` was requested. -/
def runStep (s : FpsState) (current_time : ℤ) : FpsState × Bool :=
  let s2 := update_fps s current_time
  (s2, decide (s2.frame_count % 10 = 0))

/-- The sequence of per-frame reclamation flags over a run of the frame loop
with the given capture timestamps. -/
def gcFlags : FpsState → List ℤ → List Bool
  | _, [] => []
  | s, t :: ts => (runStep s t).2 :: gcFlags (runStep s t).1 ts

/-- Modelled from the spec's words for C6: "the number of processed frames
between two consecutive reclamation requests is always exactly 10". -/
def reclaimGapAlwaysTen (flags : List Bool) : Prop :=
  ∀ i, i < flags.length → ∀ j, j < flags.length →
    i < j → flags.getD i false = true → flags.getD j false = true →
    (∀ k, k < j → i < k → flags.getD k false = false) → j - i = 10

set_option maxRecDepth 20000 in
/-- C6 counterexample: with frames at 1..12ms and a 13th frame at 1000ms, a
reclamation happens at frame 10 (counter = 10) and again at frame 13, because
the window rollover resets `frame_count` to 0 and `0 % 10 == 0` — only 3
frames apart, refuting "always exactly 10". -/
theorem gc_gap_cex :
    ¬ reclaimGapAlwaysTen
        (gcFlags ⟨0, 0, 0⟩ [1, 2, 3, 4, 5, 6, 7, 8, 9, 10, 11, 12, 1000]) := by
  intro h
  have h912 := h 9 (by decide) 12 (by decide) (by decide) (by decide) (by decide)
    (fun k hk hik => by
      have hk2 : k = 10 ∨ k = 11 := by omega
      rcases hk2 with rfl | rfl <;> decide)
  exact absurd h912 (by decide)

theorem gcFlags_within_window_aux (ts : List ℤ) (k f : ℕ)
    (hin : ∀ x ∈ ts, ticks_diff x 0 < 1000) :
    ∀ i, i < ts.length →
      (gcFlags ⟨k, f, 0⟩ ts).getD i false = decide ((k + i + 1) % 10 = 0) := by
  induction ts generalizing k f with
  | nil => intro i hi; cases hi
  | cons x ts ih =>
      have hx : ¬ (1000 ≤ ticks_diff x 0) :=
        not_le.mpr (hin x (List.mem_cons_self x ts))
      have hrest : ∀ y ∈ ts, ticks_diff y 0 < 1000 :=
        fun y hy => hin y (List.mem_cons_of_mem x hy)
      have hstep : runStep ⟨k, f, 0⟩ x = (⟨k + 1, f, 0⟩, decide ((k + 1) % 10 = 0)) := by
        rw [runStep, update_fps]
        rw [if_neg hx]
      intro i hi
      rw [gcFlags, hstep]
      cases i with
      | zero => rfl
      | succ m =>
          have hm : m < ts.length := by
            simpa using Nat.lt_of_succ_lt_succ hi
          have := ih (k + 1) f hrest m hm
          rw [List.getD_cons_succ, this,
            show k + 1 + m + 1 = k + (m + 1) + 1 by omega]

/-- C6 (amended): reclamation is requested on exactly the frames where the
(window-relative) FPS counter after the frame's update is a multiple of 10.
As long as no FPS window rollover occurs, that is exactly every 10th
processed frame; a rollover resets the counter and makes the rollover frame
itself request reclamation (see the counterexample for the rollover case). -/
theorem gcFlags_within_window (ts : List ℤ)
    (hin : ∀ x ∈ ts, ticks_diff x 0 < 1000) :
    ∀ i, i < ts.length →
      (gcFlags ⟨0, 0, 0⟩ ts).getD i false = decide ((i + 1) % 10 = 0) := by
  intro i hi
  simpa using gcFlags_within_window_aux ts 0 0 hin i hi

set_option maxRecDepth 20000 in
/-- Witness for C6 (amended): 12 frames all inside the first window;
reclamation exactly at the 10th. -/
theorem gcFlags_within_window_witness :
    (∀ x ∈ List.replicate 12 (5 : ℤ), ticks_diff x 0 < 1000) ∧
    (∀ i, i < (List.replicate 12 (5 : ℤ)).length →
      (gcFlags ⟨0, 0, 0⟩ (List.replicate 12 (5 : ℤ))).getD i false =
        decide ((i + 1) % 10 = 0)) :=
  ⟨by decide, gcFlags_within_window (List.replicate 12 (5 : ℤ)) (by decide)⟩
